import Mathlib

/-!
# zgrab2 `utility.go`: target parsing, address arithmetic, scan-status classification

A shallow embedding of `ParseTarget`, `incrementIP` and `TryGetScanStatus`
from `utility.go`, followed by theorems about them.

Conventions of the embedding:

* a Go `byte` is a `Nat` below `256`; arithmetic on bytes is reduced `% 256`
  explicitly where the Go code can overflow;
* a Go slice `[]byte` (`net.IP`, `net.IPMask`) is the `List Nat` of its contents;
  a function that mutates a slice in place returns the new contents;
* where aliasing matters, a slice is a header (`Slice`) into a memory of backing arrays
  (`Heap`), the functions of namespace `Mem` pass the memory explicitly, and they are
  proved to agree with the functions on contents;
* a Go `string` is a Lean `String` (so only valid UTF-8 strings are modelled);
* a run-time panic is the `Except.error` case of `Except Panic _`.
-/

set_option autoImplicit false

namespace Zgrab2

/-! ## Data model -/

/-- The contents of a `net.IP` byte slice, most significant byte first. -/
abbrev IP := List Nat

/-- Every element of the slice is a Go `byte`. -/
def IsBytes (ip : IP) : Prop := ∀ b ∈ ip, b < 256

instance (ip : IP) : Decidable (IsBytes ip) := by
  unfold IsBytes; infer_instance

/-- Big-endian unsigned value of a byte sequence. -/
def value (ip : IP) : Nat := ip.foldl (fun acc b => acc * 256 + b) 0

/-! ## `incrementIP` -/

/-- The loop of `incrementIP`, entered with `j + 1 = k` (so `k = 0` is the exit
`j < 0`): `ip[j]++` on a byte, then `break` when the new byte is positive. -/
def incrementIPLoop : Nat → IP → IP
  | 0, ip => ip
  | j + 1, ip =>
    let ip1 := ip.set j ((ip.getD j 0 + 1) % 256)
    if ip1.getD j 0 > 0 then ip1 else incrementIPLoop j ip1

/-- The function `incrementIP(ip net.IP)`: the loop starts at `j = len(ip) - 1`. The
result is the contents of the slice after the call. -/
def incrementIP (ip : IP) : IP := incrementIPLoop ip.length ip

/-- The number of trailing bytes of `ip` that are equal to `255`. -/
def trailing255 (ip : IP) : Nat := (ip.reverse.takeWhile (fun b => b == 255)).length

/-! ## `duplicateIP` on slice contents -/

namespace builtin

/-- The contents of `make(net.IP, n)`: `n` zero bytes. -/
def make (n : Nat) : IP := List.replicate n 0

/-- The contents of `dst` after the built-in `copy(dst, src)`, which copies
`min(len(dst), len(src))` elements from the front of `src` to the front of `dst`. -/
def copy (dst src : IP) : IP :=
  src.take (min dst.length src.length) ++ dst.drop (min dst.length src.length)

end builtin

/-- The function `duplicateIP(ip net.IP) net.IP`, on contents: the contents of the slice
`dup` that it returns. -/
def duplicateIP (ip : IP) : IP :=
  let dup := builtin.make ip.length
  builtin.copy dup ip

/-! ## Slices in memory: `duplicateIP` and `incrementIP` with aliasing -/

/-- A slice header of a `net.IP`: the number of the backing array it points into, the offset
of its first element there, and its length. The capacity is not used by the modelled code. -/
structure Slice where
  arr : Nat
  off : Nat
  len : Nat
  deriving DecidableEq, Repr

/-- The memory: the contents of the backing arrays allocated so far, by allocation number. -/
abbrev Heap := List (List Nat)

namespace Mem

/-- The slice `s` is usable in the memory `h`: it is empty (as the nil slice is), or it lies
within an allocated backing array. -/
def Valid (h : Heap) (s : Slice) : Prop :=
  s.len = 0 ∨ (s.arr < h.length ∧ s.off + s.len ≤ (h.getD s.arr []).length)

instance (h : Heap) (s : Slice) : Decidable (Valid h s) := by
  unfold Valid; infer_instance

/-- The element `s[j]`. -/
def get (h : Heap) (s : Slice) (j : Nat) : Nat := (h.getD s.arr []).getD (s.off + j) 0

/-- The memory after the assignment `s[j] = b`. -/
def put (h : Heap) (s : Slice) (j b : Nat) : Heap :=
  h.set s.arr ((h.getD s.arr []).set (s.off + j) b)

/-- The contents `s[0], ..., s[len(s)-1]` of a slice. -/
def read (h : Heap) (s : Slice) : IP := ((h.getD s.arr []).drop s.off).take s.len

/-- The built-in `make(net.IP, n)`: a new backing array of `n` zero bytes, and the slice of
length `n` over it. -/
def make (h : Heap) (n : Nat) : Heap × Slice :=
  (h ++ [List.replicate n 0], ⟨h.length, 0, n⟩)

/-- The built-in `copy(dst, src)`: the first `min(len(dst), len(src))` elements of `src`, as
they are before the call, are stored at the front of `dst`. -/
def copy (h : Heap) (dst src : Slice) : Heap :=
  let data := (read h src).take (min dst.len src.len)
  let a := h.getD dst.arr []
  h.set dst.arr (a.take dst.off ++ data ++ a.drop (dst.off + data.length))

/-- The function `duplicateIP(ip net.IP) net.IP`: the memory after the call and the slice
`dup` it returns. -/
def duplicateIP (h : Heap) (ip : Slice) : Heap × Slice :=
  let (h1, dup) := make h ip.len
  (copy h1 dup ip, dup)

/-- The loop of `incrementIP` on a slice in memory, entered with `j + 1 = k`. -/
def incrementIPLoop : Nat → Heap → Slice → Heap
  | 0, h, _ => h
  | j + 1, h, ip =>
    let h1 := put h ip j ((get h ip j + 1) % 256)
    if get h1 ip j > 0 then h1 else incrementIPLoop j h1 ip

/-- The function `incrementIP(ip net.IP)`, which changes the backing array of `ip` in place:
the memory after the call. -/
def incrementIP (h : Heap) (ip : Slice) : Heap := incrementIPLoop ip.len h ip

end Mem

/-! ## Go run-time values: panics and the `error` interface -/

/-- The run-time panics that the modelled functions can raise. -/
inductive Panic where
  /-- A field is read through a nil pointer. -/
  | nilDereference
  /-- A slice is indexed outside its length. -/
  | indexOutOfRange
  deriving DecidableEq, Repr

namespace net

/-- The struct `net.OpError` of the standard library, with the fields that name the failed
operation; `TryGetScanStatus` reads `Op` only. The fields `Source`, `Addr` and `Err` are
never read by this file and are left out. -/
structure OpError where
  Op : String
  Net : String
  deriving DecidableEq, Repr

/-- The struct `net.IPNet`; `Mask = none` is the nil mask of `&net.IPNet{IP: ip}`. -/
structure IPNet where
  IP : IP
  Mask : Option (List Nat)
  deriving DecidableEq, Repr

end net

/-- A non-nil value of the interface `error`, by dynamic type. The nil interface value is
`none : Option Error`. -/
inductive Error where
  /-- Dynamic type `*net.OpError`; the pointer held by the interface is `none` when nil. -/
  | opError (e : Option net.OpError)
  /-- The value of `errors.New(text)`. -/
  | errorString (text : String)
  /-- A value of any other dynamic type, named by its type and its message. -/
  | other (typeName : String) (text : String)
  deriving DecidableEq, Repr

deriving instance DecidableEq for Except

/-! ## `TryGetScanStatus` -/

/-- Modelled from the spec: the type `ScanStatus` and its constants are declared in a file of
the package that is not part of the sources at hand. The spec gives the outcome as a closed
enumeration of distinct members SUCCESS, CONNECTION_TIMEOUT, IO_TIMEOUT, UNKNOWN_ERROR;
the members below carry the names `utility.go` uses for them. -/
inductive ScanStatus where
  | SCAN_SUCCESS
  | SCAN_CONNECTION_TIMEOUT
  | SCAN_IO_TIMEOUT
  | SCAN_UNKNOWN_ERROR
  deriving DecidableEq, Repr

/-- The function `TryGetScanStatus(err error) ScanStatus`. In the case `*net.OpError` of the
type switch, `e` is the pointer held by the interface, and `e.Op` panics when it is nil. -/
def TryGetScanStatus (err : Option Error) : Except Panic ScanStatus :=
  match err with
  | none => .ok .SCAN_SUCCESS
  | some (.opError e) =>
    match e with
    | none => .error .nilDereference
    | some op =>
      if op.Op = "dial" then .ok .SCAN_CONNECTION_TIMEOUT
      else if op.Op = "read" then .ok .SCAN_IO_TIMEOUT
      else if op.Op = "write" then .ok .SCAN_IO_TIMEOUT
      else .ok .SCAN_UNKNOWN_ERROR
  | some _ => .ok .SCAN_UNKNOWN_ERROR

/-! ## The `strings` and `unicode` functions used by `ParseTarget` -/

namespace unicode

/-- The function `unicode.IsSpace`: the Latin-1 cases of its switch, then the ranges of the
table `White_Space` above Latin-1. -/
def IsSpace (r : Char) : Bool :=
  let n := r.toNat
  if n ≤ 0xFF then
    n = 0x09 || n = 0x0A || n = 0x0B || n = 0x0C || n = 0x0D || n = 0x20 || n = 0x85 || n = 0xA0
  else
    n = 0x1680 || (0x2000 ≤ n && n ≤ 0x200A) || n = 0x2028 || n = 0x2029 || n = 0x202F ||
      n = 0x205F || n = 0x3000

end unicode

namespace strings

/-- Scan for `IndexByte`: `k` is the byte offset of the head of the list. -/
def indexByteFrom (c : Char) : List Char → Nat → Int
  | [], _ => -1
  | x :: xs, k => if x = c then (k : Int) else indexByteFrom c xs (k + x.utf8Size)

/-- The function `strings.IndexByte(s, c)` for an ASCII byte `c`: the byte offset of the first
`c` in `s`, or `-1` when `s` has none. -/
def IndexByte (s : String) (c : Char) : Int := indexByteFrom c s.data 0

/-- The pieces of a character sequence between consecutive separators, in order. -/
def splitChars (sep : Char) : List Char → List (List Char)
  | [] => [[]]
  | c :: cs =>
    let r := splitChars sep cs
    if c = sep then [] :: r else (c :: r.headD []) :: r.tail

/-- The function `strings.Split(s, sep)` for a separator of one ASCII character: `s` cut at
every `sep`, which gives one piece more than `s` has separators. -/
def Split (s : String) (sep : Char) : List String := (splitChars sep s.data).map String.mk

/-- The function `strings.TrimSpace(s)`: `s` without its leading and trailing characters that
satisfy `unicode.IsSpace`. -/
def TrimSpace (s : String) : String :=
  ⟨(s.data.dropWhile unicode.IsSpace).rdropWhile unicode.IsSpace⟩

end strings

/-! ## `ParseTarget` -/

/-- The standard-library functions that `ParseTarget` calls, as parameters of the embedding.
`ParseIP` gives `none` for Go's nil address; the other two give either a value or a non-nil
error, as a Go function returning `(value, error)` does. -/
structure Resolver where
  ParseIP : String → Option IP
  LookupIP : String → Except Error (List IP)
  ParseCIDR : String → Except Error (IP × net.IPNet)

/-- A call made to one of the functions of a `Resolver`. -/
inductive Call where
  | ParseIP (s : String)
  | LookupIP (s : String)
  | ParseCIDR (s : String)
  deriving DecidableEq, Repr

/-- The three values `(*net.IPNet, string, error)` returned by `ParseTarget`; a nil pointer
and a nil error are `none`. -/
abbrev Target := Option net.IPNet × String × Option Error

/-- One execution of `ParseTarget`: the library calls it made, in order, and how it ended. -/
structure Run where
  calls : List Call
  ret : Except Panic Target
  deriving DecidableEq

/-- The function `ParseTarget(s string) (*net.IPNet, string, error)`. -/
def ParseTarget (env : Resolver) (s : String) : Run :=
  let i := strings.IndexByte s ','
  let j := strings.IndexByte s '/'
  if i = -1 ∧ j = -1 then
    -- just ip or domain
    match env.ParseIP s with
    | some ip => ⟨[.ParseIP s], .ok (some ⟨ip, none⟩, "", none)⟩
    | none =>
      match env.LookupIP s with
      | .error err => ⟨[.ParseIP s, .LookupIP s], .ok (none, "", some err)⟩
      | .ok ips =>
        match ips with
        | [] => ⟨[.ParseIP s, .LookupIP s], .error .indexOutOfRange⟩
        | ip0 :: _ => ⟨[.ParseIP s, .LookupIP s], .ok (some ⟨ip0, none⟩, s, none)⟩
  else if i = -1 then
    -- cidr block
    match env.ParseCIDR s with
    | .error err => ⟨[.ParseCIDR s], .ok (none, "", some err)⟩
    | .ok (_, ipnet) => ⟨[.ParseCIDR s], .ok (some ipnet, "", none)⟩
  else if j = -1 then
    -- ip,domain
    match strings.Split s ',' with
    | [str0, str1] =>
      let d := strings.TrimSpace str1
      match env.ParseIP str0 with
      | some ip => ⟨[.ParseIP str0], .ok (some ⟨ip, none⟩, d, none)⟩
      | none => ⟨[.ParseIP str0], .ok (none, d, none)⟩
    | _ => ⟨[], .ok (none, "", some (.errorString "malformed input"))⟩
  else
    ⟨[], .ok (none, "", none)⟩

/-- A resolver that knows one address literal, one host name and one CIDR block, with the
results the standard library gives for them. -/
def sampleResolver : Resolver where
  ParseIP s :=
    if s = "10.0.0.1" then some [0, 0, 0, 0, 0, 0, 0, 0, 0, 0, 255, 255, 10, 0, 0, 1] else none
  LookupIP s :=
    if s = "example.com" then .ok [[93, 184, 216, 34]]
    else .error (.other "*net.DNSError" "no such host")
  ParseCIDR s :=
    if s = "10.0.0.0/24" then
      .ok ([0, 0, 0, 0, 0, 0, 0, 0, 0, 0, 255, 255, 10, 0, 0, 0],
        ⟨[10, 0, 0, 0], some [255, 255, 255, 0]⟩)
    else .error (.other "*net.ParseError" "invalid CIDR address")

/-- A resolver whose name lookup of `example.com` gives two addresses, an IPv4 one followed
by an IPv6 one; it knows no address literal and no CIDR block. -/
def dualStackResolver : Resolver where
  ParseIP _ := none
  LookupIP s :=
    if s = "example.com" then
      .ok [[93, 184, 216, 34],
        [0x26, 0x06, 0x28, 0x00, 0x02, 0x20, 0, 1, 0x02, 0x48, 0x18, 0x93, 0x25, 0xc8, 0x19, 0x46]]
    else .error (.other "*net.DNSError" "no such host")
  ParseCIDR _ := .error (.other "*net.ParseError" "invalid CIDR address")

end Zgrab2

/-! # Theorems -/

namespace Zgrab2

/-! ## Address arithmetic -/

theorem value_append_singleton (p : IP) (b : Nat) : value (p ++ [b]) = value p * 256 + b := by
  simp [value, List.foldl_append]

theorem isBytes_append {p q : IP} : IsBytes (p ++ q) ↔ IsBytes p ∧ IsBytes q := by
  simp only [IsBytes, List.mem_append]
  constructor
  · intro h; exact ⟨fun b hb => h b (Or.inl hb), fun b hb => h b (Or.inr hb)⟩
  · rintro ⟨h1, h2⟩ b (hb | hb)
    · exact h1 b hb
    · exact h2 b hb

theorem isBytes_singleton {b : Nat} : IsBytes [b] ↔ b < 256 := by
  simp [IsBytes]

theorem value_lt (p : IP) (h : IsBytes p) : value p < 256 ^ p.length := by
  induction p using List.reverseRecOn with
  | nil => simp [value]
  | append_singleton p b ih =>
    rw [isBytes_append, isBytes_singleton] at h
    have := ih h.1
    rw [value_append_singleton, List.length_append, List.length_singleton, pow_succ]
    omega

theorem getD_append_cons_length (pre suf : IP) (b : Nat) :
    (pre ++ b :: suf).getD pre.length 0 = b := by
  rw [List.getD_append_right _ _ _ _ (le_refl _)]
  simp

theorem set_append_cons_length (pre suf : IP) (b x : Nat) :
    (pre ++ b :: suf).set pre.length x = pre ++ x :: suf := by
  simp

/-- One iteration of the loop at index `pre.length`, when the byte there is below `255`. -/
theorem incrementIPLoop_step_lt (pre suf : IP) (b : Nat) (hb : b < 255) :
    incrementIPLoop (pre.length + 1) (pre ++ b :: suf) = pre ++ (b + 1) :: suf := by
  have h1 : (b + 1) % 256 = b + 1 := Nat.mod_eq_of_lt (by omega)
  rw [incrementIPLoop]
  simp only [getD_append_cons_length, set_append_cons_length, h1]
  rw [if_pos (by omega)]

/-- One iteration of the loop at index `pre.length`, when the byte there is `255`. -/
theorem incrementIPLoop_step_carry (pre suf : IP) :
    incrementIPLoop (pre.length + 1) (pre ++ 255 :: suf)
      = incrementIPLoop pre.length (pre ++ 0 :: suf) := by
  rw [incrementIPLoop]
  simp only [getD_append_cons_length, set_append_cons_length]
  rfl

/-- The loop run over the first `pre.length` bytes rewrites exactly those bytes, to the
bytes of the successor modulo `256 ^ pre.length`. -/
theorem incrementIPLoop_spec (pre : IP) : ∀ suf : IP, IsBytes pre →
    ∃ pre1 : IP, incrementIPLoop pre.length (pre ++ suf) = pre1 ++ suf ∧
      pre1.length = pre.length ∧ IsBytes pre1 ∧
      value pre1 = (value pre + 1) % 256 ^ pre.length := by
  induction pre using List.reverseRecOn with
  | nil => intro suf _; exact ⟨[], by simp [incrementIPLoop], rfl, by simp [IsBytes], by simp [value]⟩
  | append_singleton p b ih =>
    intro suf h
    rw [isBytes_append, isBytes_singleton] at h
    obtain ⟨hp, hb⟩ := h
    have hv := value_lt p hp
    rw [List.length_append, List.length_singleton, List.append_assoc, List.singleton_append]
    by_cases hb255 : b = 255
    · subst hb255
      obtain ⟨p1, e1, l1, w1, v1⟩ := ih (0 :: suf) hp
      refine ⟨p1 ++ [0], ?_, ?_, ?_, ?_⟩
      · rw [incrementIPLoop_step_carry, e1]; simp
      · simp [l1]
      · rw [isBytes_append, isBytes_singleton]; exact ⟨w1, by omega⟩
      · rw [value_append_singleton, value_append_singleton, v1, Nat.pow_succ]
        have e : value p * 256 + 255 + 1 = (value p + 1) * 256 := by ring
        rw [e, Nat.mul_mod_mul_right]
        simp
    · refine ⟨p ++ [b + 1], ?_, ?_, ?_, ?_⟩
      · rw [incrementIPLoop_step_lt _ _ _ (by omega)]; simp
      · simp
      · rw [isBytes_append, isBytes_singleton]; exact ⟨hp, by omega⟩
      · rw [value_append_singleton, value_append_singleton, Nat.pow_succ, Nat.mod_eq_of_lt]
        · ring
        · omega

theorem value_injective : ∀ p q : IP, p.length = q.length → IsBytes p → IsBytes q →
    value p = value q → p = q := by
  intro p
  induction p using List.reverseRecOn with
  | nil =>
    intro q hl _ _ _
    exact (List.length_eq_zero.mp (by simpa using hl.symm)).symm
  | append_singleton p a ih =>
    intro q hl hp hq hv
    rcases List.eq_nil_or_concat q with rfl | ⟨q1, b, rfl⟩
    · simp at hl
    · rw [List.concat_eq_append] at hl hq hv ⊢
      rw [isBytes_append, isBytes_singleton] at hp hq
      rw [value_append_singleton, value_append_singleton] at hv
      have hl1 : p.length = q1.length := by simpa using hl
      have hab : a = b := by omega
      have hpq : value p = value q1 := by omega
      rw [ih q1 hl1 hp.1 hq.1 hpq, hab]

theorem incrementIP_length (ip : IP) : (incrementIP ip).length = ip.length := by
  suffices h : ∀ k (l : IP), (incrementIPLoop k l).length = l.length from h _ _
  intro k
  induction k with
  | zero => intro l; rfl
  | succ j ih =>
    intro l
    rw [incrementIPLoop]
    split
    · simp
    · rw [ih]; simp

theorem incrementIP_isBytes (ip : IP) (h : IsBytes ip) : IsBytes (incrementIP ip) := by
  obtain ⟨r, e, _, w, _⟩ := incrementIPLoop_spec ip [] h
  rw [List.append_nil, List.append_nil] at e
  rw [incrementIP, e]; exact w

theorem incrementIP_value (ip : IP) (h : IsBytes ip) :
    value (incrementIP ip) = (value ip + 1) % 256 ^ ip.length := by
  obtain ⟨r, e, _, _, v⟩ := incrementIPLoop_spec ip [] h
  rw [List.append_nil, List.append_nil] at e
  rw [incrementIP, e]; exact v

theorem iterate_incrementIP_length (k : Nat) (ip : IP) :
    (incrementIP^[k] ip).length = ip.length := by
  induction k with
  | zero => rfl
  | succ k ih => rw [Function.iterate_succ_apply', incrementIP_length, ih]

theorem iterate_incrementIP_isBytes (k : Nat) (ip : IP) (h : IsBytes ip) :
    IsBytes (incrementIP^[k] ip) := by
  induction k with
  | zero => exact h
  | succ k ih => rw [Function.iterate_succ_apply']; exact incrementIP_isBytes _ ih

theorem iterate_incrementIP_value (k : Nat) (ip : IP) (h : IsBytes ip) :
    value (incrementIP^[k] ip) = (value ip + k) % 256 ^ ip.length := by
  induction k with
  | zero => exact (Nat.mod_eq_of_lt (value_lt ip h)).symm
  | succ k ih =>
    rw [Function.iterate_succ_apply', incrementIP_value _ (iterate_incrementIP_isBytes k ip h),
      iterate_incrementIP_length, ih, Nat.mod_add_mod, Nat.add_assoc]

/-- C1. For every address `ip` (a sequence of bytes of any length `n`), `incrementIP` keeps the
length `n` and turns `ip` into the one sequence of `n` bytes whose big-endian unsigned value
is `(value ip + 1) mod 256 ^ n`. -/
theorem incrementIP_is_successor_mod (ip : IP) (h : IsBytes ip) :
    (incrementIP ip).length = ip.length ∧ IsBytes (incrementIP ip) ∧
    value (incrementIP ip) = (value ip + 1) % 256 ^ ip.length ∧
    ∀ r : IP, r.length = ip.length → IsBytes r →
      value r = (value ip + 1) % 256 ^ ip.length → incrementIP ip = r :=
  ⟨incrementIP_length ip, incrementIP_isBytes ip h, incrementIP_value ip h,
    fun _ hl hr hv => value_injective _ _ ((incrementIP_length ip).trans hl.symm)
      (incrementIP_isBytes ip h) hr ((incrementIP_value ip h).trans hv.symm)⟩

/-- The successor property at two 4-byte addresses: `1.2.3.255` becomes `1.2.4.0` and
`255.255.255.255` becomes `0.0.0.0`. -/
theorem incrementIP_is_successor_mod_witness :
    IsBytes [1, 2, 3, 255] ∧ incrementIP [1, 2, 3, 255] = [1, 2, 4, 0] ∧
    IsBytes [255, 255, 255, 255] ∧ incrementIP [255, 255, 255, 255] = [0, 0, 0, 0] :=
  ⟨by decide,
    (incrementIP_is_successor_mod [1, 2, 3, 255] (by decide)).2.2.2 [1, 2, 4, 0] rfl
      (by decide) (by decide),
    by decide,
    (incrementIP_is_successor_mod [255, 255, 255, 255] (by decide)).2.2.2 [0, 0, 0, 0] rfl
      (by decide) (by decide)⟩

/-- C2. For every length `n`, `incrementIP` is a bijection of the set of `n`-byte addresses:
it maps every `n`-byte address to an `n`-byte address, it is injective there, and every
`n`-byte address is the increment of some `n`-byte address. -/
theorem incrementIP_bijective_on_length (n : Nat) :
    (∀ ip : IP, ip.length = n → IsBytes ip →
      (incrementIP ip).length = n ∧ IsBytes (incrementIP ip)) ∧
    (∀ ip1 ip2 : IP, ip1.length = n → IsBytes ip1 → ip2.length = n → IsBytes ip2 →
      incrementIP ip1 = incrementIP ip2 → ip1 = ip2) ∧
    (∀ ip : IP, ip.length = n → IsBytes ip →
      ∃ ip0 : IP, ip0.length = n ∧ IsBytes ip0 ∧ incrementIP ip0 = ip) := by
  refine ⟨?_, ?_, ?_⟩
  · intro ip hl h
    exact ⟨(incrementIP_length ip).trans hl, incrementIP_isBytes ip h⟩
  · intro ip1 ip2 hl1 h1 hl2 h2 he
    have hv := congrArg value he
    rw [incrementIP_value _ h1, incrementIP_value _ h2, hl1, hl2] at hv
    have b1 := value_lt ip1 h1
    have b2 := value_lt ip2 h2
    rw [hl1] at b1
    rw [hl2] at b2
    apply value_injective _ _ (hl1.trans hl2.symm) h1 h2
    generalize 256 ^ n = N at hv b1 b2
    by_cases c1 : value ip1 + 1 = N
    · by_cases c2 : value ip2 + 1 = N
      · omega
      · rw [c1, Nat.mod_self, Nat.mod_eq_of_lt (by omega)] at hv
        omega
    · by_cases c2 : value ip2 + 1 = N
      · rw [c2, Nat.mod_self, Nat.mod_eq_of_lt (by omega)] at hv
        omega
      · rw [Nat.mod_eq_of_lt (by omega), Nat.mod_eq_of_lt (by omega)] at hv
        omega
  · intro ip hl h
    have hN : 0 < 256 ^ n := Nat.pow_pos (by decide)
    refine ⟨incrementIP^[256 ^ n - 1] ip, ?_, iterate_incrementIP_isBytes _ ip h, ?_⟩
    · rw [iterate_incrementIP_length, hl]
    · apply value_injective _ _ _ (incrementIP_isBytes _ (iterate_incrementIP_isBytes _ ip h)) h
      · rw [incrementIP_value _ (iterate_incrementIP_isBytes _ ip h),
          iterate_incrementIP_value _ ip h, iterate_incrementIP_length, hl, Nat.mod_add_mod]
        have b := value_lt ip h
        rw [hl] at b
        have e : value ip + (256 ^ n - 1) + 1 = value ip + 256 ^ n := by omega
        rw [e, Nat.add_mod_right, Nat.mod_eq_of_lt b]
      · rw [incrementIP_length, iterate_incrementIP_length]

/-- The bijection at length `2`: the increment of `255.255` is a 2-byte address, the address
`0.0` is the increment of a 2-byte address, and the distinct addresses `255.255` and `0.0`
have distinct increments. -/
theorem incrementIP_bijective_on_length_witness :
    ((incrementIP [255, 255]).length = 2 ∧ IsBytes (incrementIP [255, 255])) ∧
    (∃ ip0 : IP, ip0.length = 2 ∧ IsBytes ip0 ∧ incrementIP ip0 = [0, 0]) ∧
    incrementIP [255, 255] ≠ incrementIP [0, 0] :=
  ⟨(incrementIP_bijective_on_length 2).1 [255, 255] rfl (by decide),
    (incrementIP_bijective_on_length 2).2.2 [0, 0] rfl (by decide),
    fun h => absurd
      ((incrementIP_bijective_on_length 2).2.1 [255, 255] [0, 0] rfl (by decide) rfl
        (by decide) h)
      (by decide)⟩

/-! ## Scan-status classification -/

/-- C3. `TryGetScanStatus` follows its decision table: a nil error gives `SCAN_SUCCESS`; a
`*net.OpError` with `Op = "dial"` gives `SCAN_CONNECTION_TIMEOUT`, with `Op = "read"` or
`Op = "write"` gives `SCAN_IO_TIMEOUT`, with any other `Op` gives `SCAN_UNKNOWN_ERROR`; and a
non-nil error of any other dynamic type gives `SCAN_UNKNOWN_ERROR`. -/
theorem TryGetScanStatus_decision_table :
    TryGetScanStatus none = .ok .SCAN_SUCCESS ∧
    (∀ op : net.OpError, op.Op = "dial" →
      TryGetScanStatus (some (.opError (some op))) = .ok .SCAN_CONNECTION_TIMEOUT) ∧
    (∀ op : net.OpError, op.Op = "read" ∨ op.Op = "write" →
      TryGetScanStatus (some (.opError (some op))) = .ok .SCAN_IO_TIMEOUT) ∧
    (∀ op : net.OpError, op.Op ≠ "dial" → op.Op ≠ "read" → op.Op ≠ "write" →
      TryGetScanStatus (some (.opError (some op))) = .ok .SCAN_UNKNOWN_ERROR) ∧
    (∀ text : String, TryGetScanStatus (some (.errorString text)) = .ok .SCAN_UNKNOWN_ERROR) ∧
    (∀ typeName text : String,
      TryGetScanStatus (some (.other typeName text)) = .ok .SCAN_UNKNOWN_ERROR) := by
  refine ⟨rfl, ?_, ?_, ?_, fun _ => rfl, fun _ _ => rfl⟩
  · intro op h
    simp [TryGetScanStatus, h]
  · rintro op (h | h) <;> simp [TryGetScanStatus, h]
  · intro op h1 h2 h3
    simp [TryGetScanStatus, h1, h2, h3]

/-- The decision table at a dial failure, a read failure, a write failure and an accept
failure. -/
theorem TryGetScanStatus_decision_table_witness :
    TryGetScanStatus (some (.opError (some ⟨"dial", "tcp"⟩))) = .ok .SCAN_CONNECTION_TIMEOUT ∧
    TryGetScanStatus (some (.opError (some ⟨"read", "tcp"⟩))) = .ok .SCAN_IO_TIMEOUT ∧
    TryGetScanStatus (some (.opError (some ⟨"write", "tcp"⟩))) = .ok .SCAN_IO_TIMEOUT ∧
    TryGetScanStatus (some (.opError (some ⟨"accept", "tcp"⟩))) = .ok .SCAN_UNKNOWN_ERROR :=
  ⟨TryGetScanStatus_decision_table.2.1 ⟨"dial", "tcp"⟩ rfl,
    TryGetScanStatus_decision_table.2.2.1 ⟨"read", "tcp"⟩ (Or.inl rfl),
    TryGetScanStatus_decision_table.2.2.1 ⟨"write", "tcp"⟩ (Or.inr rfl),
    TryGetScanStatus_decision_table.2.2.2.1 ⟨"accept", "tcp"⟩ (by decide) (by decide)
      (by decide)⟩

/-- C4, at the input where it fails: for an `error` interface that holds a nil `*net.OpError`,
the type switch selects the case `*net.OpError` and reading `e.Op` panics, so
`TryGetScanStatus` returns no outcome there. -/
theorem TryGetScanStatus_nil_OpError_panics :
    TryGetScanStatus (some (.opError none)) = .error .nilDereference ∧
    ¬ ∃ st : ScanStatus, TryGetScanStatus (some (.opError none)) = .ok st := by
  refine ⟨rfl, ?_⟩
  rintro ⟨st, h⟩
  simp [TryGetScanStatus] at h

/-! ## Strings -/

namespace strings

theorem indexByteFrom_nonneg_of_mem (c : Char) : ∀ (l : List Char) (k : Nat),
    c ∈ l → 0 ≤ indexByteFrom c l k := by
  intro l
  induction l with
  | nil => intro k h; simp at h
  | cons x xs ih =>
    intro k h
    rw [indexByteFrom]
    split
    · exact Int.ofNat_nonneg k
    · rename_i hx
      rcases List.mem_cons.mp h with rfl | h1
      · exact absurd rfl hx
      · exact ih _ h1

theorem indexByteFrom_of_not_mem (c : Char) : ∀ (l : List Char) (k : Nat),
    c ∉ l → indexByteFrom c l k = -1 := by
  intro l
  induction l with
  | nil => intro k _; rfl
  | cons x xs ih =>
    intro k h
    rw [List.mem_cons, not_or] at h
    rw [indexByteFrom, if_neg (fun e => h.1 e.symm)]
    exact ih _ h.2

/-- `IndexByte` gives `-1` exactly when the string does not contain the byte. -/
theorem IndexByte_eq_neg_one_iff (s : String) (c : Char) :
    IndexByte s c = -1 ↔ c ∉ s.data := by
  constructor
  · intro h hc
    have := indexByteFrom_nonneg_of_mem c s.data 0 hc
    rw [IndexByte] at h
    omega
  · exact indexByteFrom_of_not_mem c s.data 0

/-- Splitting gives one piece more than there are separators. -/
theorem length_splitChars (sep : Char) (l : List Char) :
    (splitChars sep l).length = l.count sep + 1 := by
  induction l with
  | nil => rfl
  | cons c cs ih =>
    rw [splitChars]
    by_cases h : c = sep
    · subst h
      rw [if_pos rfl, List.length_cons, ih, List.count_cons_self]
    · rw [if_neg h, List.length_cons, List.length_tail, ih,
        List.count_cons_of_ne (fun e => h e.symm)]
      rfl

theorem splitChars_of_not_mem (sep : Char) (l : List Char) (h : sep ∉ l) :
    splitChars sep l = [l] := by
  induction l with
  | nil => rfl
  | cons c cs ih =>
    rw [List.mem_cons, not_or] at h
    rw [splitChars]
    rw [if_neg (fun e => h.1 e.symm), ih h.2]
    rfl

theorem splitChars_append_sep (sep : Char) (l r : List Char) (h : sep ∉ l) :
    splitChars sep (l ++ sep :: r) = l :: splitChars sep r := by
  induction l with
  | nil => simp [splitChars]
  | cons c cs ih =>
    rw [List.mem_cons, not_or] at h
    rw [List.cons_append, splitChars]
    rw [if_neg (fun e => h.1 e.symm), ih h.2]
    rfl

theorem data_append_comma (L R : String) : (L ++ "," ++ R).data = L.data ++ ',' :: R.data := by
  simp [String.data_append]

/-- Splitting `L,R` at the comma, when neither part has a comma, gives the two parts. -/
theorem Split_pair (L R : String) (hL : ',' ∉ L.data) (hR : ',' ∉ R.data) :
    Split (L ++ "," ++ R) ',' = [L, R] := by
  rw [Split, data_append_comma, splitChars_append_sep _ _ _ hL, splitChars_of_not_mem _ _ hR]
  rfl

end strings

/-! ## Target parsing -/

/-- C5. For every string `s` without comma and slash that parses as an IP address,
`ParseTarget` returns a nil error, an empty host name and the target `&net.IPNet{IP: ip}`
with the parsed address and a nil mask; the only library call it makes is `ParseIP`, so
no name lookup is performed. -/
theorem ParseTarget_ip_literal (env : Resolver) (s : String) (ip : IP)
    (hc : ',' ∉ s.data) (hs : '/' ∉ s.data) (hip : env.ParseIP s = some ip) :
    ParseTarget env s = ⟨[.ParseIP s], .ok (some ⟨ip, none⟩, "", none)⟩ := by
  have hi := (strings.IndexByte_eq_neg_one_iff s ',').mpr hc
  have hj := (strings.IndexByte_eq_neg_one_iff s '/').mpr hs
  simp [ParseTarget, hi, hj, hip]

/-- The address literal `10.0.0.1` resolves to itself, with no host name and no lookup. -/
theorem ParseTarget_ip_literal_witness :
    ParseTarget sampleResolver "10.0.0.1" =
      ⟨[.ParseIP "10.0.0.1"],
        .ok (some ⟨[0, 0, 0, 0, 0, 0, 0, 0, 0, 0, 255, 255, 10, 0, 0, 1], none⟩, "", none)⟩ :=
  ParseTarget_ip_literal sampleResolver "10.0.0.1" _ (by decide) (by decide) (by decide)

/-- C6. For every string `s` with a slash and without comma on which CIDR parsing succeeds
with the network `ipnet`, `ParseTarget` returns a nil error, an empty host name and
`ipnet`. -/
theorem ParseTarget_cidr (env : Resolver) (s : String) (ip : IP) (ipnet : net.IPNet)
    (hs : '/' ∈ s.data) (hc : ',' ∉ s.data) (hcidr : env.ParseCIDR s = .ok (ip, ipnet)) :
    ParseTarget env s = ⟨[.ParseCIDR s], .ok (some ipnet, "", none)⟩ := by
  have hi := (strings.IndexByte_eq_neg_one_iff s ',').mpr hc
  have hj : strings.IndexByte s '/' ≠ -1 :=
    fun h => (strings.IndexByte_eq_neg_one_iff s '/').mp h hs
  simp [ParseTarget, hi, hj, hcidr]

/-- The block `10.0.0.0/24` resolves to the network `10.0.0.0` with mask
`255.255.255.0`. -/
theorem ParseTarget_cidr_witness :
    ParseTarget sampleResolver "10.0.0.0/24" =
      ⟨[.ParseCIDR "10.0.0.0/24"],
        .ok (some ⟨[10, 0, 0, 0], some [255, 255, 255, 0]⟩, "", none)⟩ :=
  ParseTarget_cidr sampleResolver "10.0.0.0/24"
    [0, 0, 0, 0, 0, 0, 0, 0, 0, 0, 255, 255, 10, 0, 0, 0] _ (by decide) (by decide) (by decide)

theorem IndexByte_pair (L R : String) (hL : '/' ∉ L.data) (hR : '/' ∉ R.data) :
    strings.IndexByte (L ++ "," ++ R) ',' ≠ -1 ∧ strings.IndexByte (L ++ "," ++ R) '/' = -1 := by
  constructor
  · intro h
    rw [strings.IndexByte_eq_neg_one_iff, strings.data_append_comma] at h
    exact h (by simp)
  · rw [strings.IndexByte_eq_neg_one_iff, strings.data_append_comma]
    simp [hL, hR]

/-- C7. For every input `L,R` where neither part has a comma or a slash and `L` parses as an
IP address, `ParseTarget` returns a nil error, the target `&net.IPNet{IP: ip}` with the
address parsed from `L` and a nil mask, and the host name `TrimSpace(R)`. -/
theorem ParseTarget_pair_ip (env : Resolver) (L R : String) (ip : IP)
    (hLc : ',' ∉ L.data) (hLs : '/' ∉ L.data) (hRc : ',' ∉ R.data) (hRs : '/' ∉ R.data)
    (hip : env.ParseIP L = some ip) :
    ParseTarget env (L ++ "," ++ R) =
      ⟨[.ParseIP L], .ok (some ⟨ip, none⟩, strings.TrimSpace R, none)⟩ := by
  obtain ⟨hi, hj⟩ := IndexByte_pair L R hLs hRs
  simp [ParseTarget, hi, hj, strings.Split_pair L R hLc hRc, hip]

/-- The input `10.0.0.1, example.com` gives the address `10.0.0.1` and the host name
`example.com`. -/
theorem ParseTarget_pair_ip_witness :
    ParseTarget sampleResolver "10.0.0.1, example.com" =
      ⟨[.ParseIP "10.0.0.1"],
        .ok (some ⟨[0, 0, 0, 0, 0, 0, 0, 0, 0, 0, 255, 255, 10, 0, 0, 1], none⟩,
          "example.com", none)⟩ :=
  ParseTarget_pair_ip sampleResolver "10.0.0.1" " example.com" _
    (by decide) (by decide) (by decide) (by decide) (by decide)

/-- C8. For every input `L,R` where neither part has a comma or a slash and `L` does not
parse as an IP address, `ParseTarget` returns a nil error, a nil target and the host name
`TrimSpace(R)`; the only library call it makes is `ParseIP`, so no name lookup is
performed. -/
theorem ParseTarget_pair_no_ip (env : Resolver) (L R : String)
    (hLc : ',' ∉ L.data) (hLs : '/' ∉ L.data) (hRc : ',' ∉ R.data) (hRs : '/' ∉ R.data)
    (hip : env.ParseIP L = none) :
    ParseTarget env (L ++ "," ++ R) = ⟨[.ParseIP L], .ok (none, strings.TrimSpace R, none)⟩ := by
  obtain ⟨hi, hj⟩ := IndexByte_pair L R hLs hRs
  simp [ParseTarget, hi, hj, strings.Split_pair L R hLc hRc, hip]

/-- The input `not-an-ip, example.com` gives no address and the host name `example.com`. -/
theorem ParseTarget_pair_no_ip_witness :
    ParseTarget sampleResolver "not-an-ip, example.com" =
      ⟨[.ParseIP "not-an-ip"], .ok (none, "example.com", none)⟩ :=
  ParseTarget_pair_no_ip sampleResolver "not-an-ip" " example.com"
    (by decide) (by decide) (by decide) (by decide) (by decide)

theorem length_Split (s : String) (sep : Char) :
    (strings.Split s sep).length = s.data.count sep + 1 := by
  rw [strings.Split, List.length_map, strings.length_splitChars]

/-- C9. For every string without slash and with two or more commas, `ParseTarget` returns
the error `malformed input` with a nil target and an empty host name; and for every string
without slash and with exactly one comma, `ParseTarget` returns with a nil error, so it does
not return the error `malformed input`. -/
theorem ParseTarget_malformed_iff_commas (env : Resolver) (s : String) (hs : '/' ∉ s.data) :
    (2 ≤ s.data.count ',' →
      ParseTarget env s = ⟨[], .ok (none, "", some (.errorString "malformed input"))⟩) ∧
    (s.data.count ',' = 1 →
      (∃ (ipnet : Option net.IPNet) (d : String), (ParseTarget env s).ret = .ok (ipnet, d, none)) ∧
      (ParseTarget env s).ret ≠ .ok (none, "", some (.errorString "malformed input"))) := by
  have hj := (strings.IndexByte_eq_neg_one_iff s '/').mpr hs
  have hlen := length_Split s ','
  have hi : 1 ≤ s.data.count ',' → strings.IndexByte s ',' ≠ -1 := by
    intro h1 h
    rw [strings.IndexByte_eq_neg_one_iff] at h
    have := List.count_eq_zero_of_not_mem h
    omega
  constructor
  · intro h2
    have hi1 := hi (by omega)
    rcases hsp : strings.Split s ',' with _ | ⟨a, _ | ⟨b, _ | ⟨c, t⟩⟩⟩
    · rw [hsp] at hlen; simp at hlen
    · rw [hsp] at hlen; simp at hlen; omega
    · rw [hsp] at hlen; simp at hlen; omega
    · simp [ParseTarget, hi1, hj, hsp]
  · intro h1
    have hi1 := hi (by omega)
    rcases hsp : strings.Split s ',' with _ | ⟨a, _ | ⟨b, _ | ⟨c, t⟩⟩⟩
    · rw [hsp] at hlen; simp at hlen
    · rw [hsp] at hlen; simp at hlen; omega
    · cases hp : env.ParseIP a with
      | none => simp [ParseTarget, hi1, hj, hsp, hp]
      | some ip => simp [ParseTarget, hi1, hj, hsp, hp]
    · rw [hsp] at hlen; simp at hlen; omega

/-- The input `a,b,c` is rejected as malformed, and the input `a,b` is not. -/
theorem ParseTarget_malformed_iff_commas_witness :
    ParseTarget sampleResolver "a,b,c" =
      ⟨[], .ok (none, "", some (.errorString "malformed input"))⟩ ∧
    (ParseTarget sampleResolver "a,b").ret ≠
      .ok (none, "", some (.errorString "malformed input")) :=
  ⟨(ParseTarget_malformed_iff_commas sampleResolver "a,b,c" (by decide)).1 (by decide),
    ((ParseTarget_malformed_iff_commas sampleResolver "a,b" (by decide)).2 (by decide)).2⟩

/-- C10, at inputs where it fails: `ParseTarget` returns a nil error together with a nil
target and an empty host name for an input with both a comma and a slash (whatever the
library functions do), and for the input `,`, whose two parts are empty. -/
theorem ParseTarget_success_with_empty_target :
    (∀ env : Resolver,
      ParseTarget env "10.0.0.0/24,example.com" = ⟨[], .ok (none, "", none)⟩) ∧
    ParseTarget sampleResolver "," = ⟨[.ParseIP ""], .ok (none, "", none)⟩ := by
  refine ⟨fun env => ?_, by decide⟩
  have h1 : strings.IndexByte "10.0.0.0/24,example.com" ',' = 11 := by decide
  have h2 : strings.IndexByte "10.0.0.0/24,example.com" '/' = 8 := by decide
  simp [ParseTarget, h1, h2]

/-- C11. For every string with both a comma and a slash, in either order, `ParseTarget`
returns a nil target, an empty host name and a nil error, and makes no library call: no IP
parsing, no CIDR parsing and no name lookup. -/
theorem ParseTarget_comma_and_slash (env : Resolver) (s : String)
    (hc : ',' ∈ s.data) (hs : '/' ∈ s.data) :
    ParseTarget env s = ⟨[], .ok (none, "", none)⟩ := by
  have hi : strings.IndexByte s ',' ≠ -1 :=
    fun h => (strings.IndexByte_eq_neg_one_iff s ',').mp h hc
  have hj : strings.IndexByte s '/' ≠ -1 :=
    fun h => (strings.IndexByte_eq_neg_one_iff s '/').mp h hs
  simp [ParseTarget, hi, hj]

/-- The inputs `10.0.0.0/24,example.com` (slash first) and `10.0.0.1,example.com/x` (comma
first) both give the empty result with no library call. -/
theorem ParseTarget_comma_and_slash_witness :
    ParseTarget sampleResolver "10.0.0.0/24,example.com" = ⟨[], .ok (none, "", none)⟩ ∧
    ParseTarget sampleResolver "10.0.0.1,example.com/x" = ⟨[], .ok (none, "", none)⟩ :=
  ⟨ParseTarget_comma_and_slash sampleResolver "10.0.0.0/24,example.com" (by decide) (by decide),
    ParseTarget_comma_and_slash sampleResolver "10.0.0.1,example.com/x" (by decide)
      (by decide)⟩

/-- C12. For every string `s` without comma and slash that does not parse as an IP address,
when the name lookup of `s` succeeds with the addresses `a0, a1, ...`, `ParseTarget` returns a
nil error, the target `&net.IPNet{IP: a0}` with the first address and a nil mask, and the
host name `s` itself, untrimmed. -/
theorem ParseTarget_hostname (env : Resolver) (s : String) (a0 : IP) (rest : List IP)
    (hc : ',' ∉ s.data) (hs : '/' ∉ s.data) (hip : env.ParseIP s = none)
    (hlook : env.LookupIP s = .ok (a0 :: rest)) :
    ParseTarget env s = ⟨[.ParseIP s, .LookupIP s], .ok (some ⟨a0, none⟩, s, none)⟩ := by
  have hi := (strings.IndexByte_eq_neg_one_iff s ',').mpr hc
  have hj := (strings.IndexByte_eq_neg_one_iff s '/').mpr hs
  simp [ParseTarget, hi, hj, hip, hlook]

/-- The host name `example.com` resolves to the first of its two addresses and keeps its
spelling. -/
theorem ParseTarget_hostname_witness :
    ParseTarget dualStackResolver "example.com" =
      ⟨[.ParseIP "example.com", .LookupIP "example.com"],
        .ok (some ⟨[93, 184, 216, 34], none⟩, "example.com", none)⟩ :=
  ParseTarget_hostname dualStackResolver "example.com" _ _ (by decide) (by decide) rfl rfl

/-- C13. `ParseTarget` hands on the error of the library unchanged, with a nil target and an
empty host name: the error of a failed name lookup for a string without comma and slash that
is not an IP literal, and the error of a failed CIDR parse for a string with a slash and
without comma. Moreover every return of `ParseTarget` with a non-nil error has a nil target
and an empty host name. -/
theorem ParseTarget_errors (env : Resolver) (s : String) :
    (∀ e : Error, ',' ∉ s.data → '/' ∉ s.data → env.ParseIP s = none →
      env.LookupIP s = .error e →
      ParseTarget env s = ⟨[.ParseIP s, .LookupIP s], .ok (none, "", some e)⟩) ∧
    (∀ e : Error, '/' ∈ s.data → ',' ∉ s.data → env.ParseCIDR s = .error e →
      ParseTarget env s = ⟨[.ParseCIDR s], .ok (none, "", some e)⟩) ∧
    (∀ (ipnet : Option net.IPNet) (d : String) (e : Error),
      (ParseTarget env s).ret = .ok (ipnet, d, some e) → ipnet = none ∧ d = "") := by
  refine ⟨?_, ?_, ?_⟩
  · intro e hc hs hip hlook
    have hi := (strings.IndexByte_eq_neg_one_iff s ',').mpr hc
    have hj := (strings.IndexByte_eq_neg_one_iff s '/').mpr hs
    simp [ParseTarget, hi, hj, hip, hlook]
  · intro e hs hc hcidr
    have hi := (strings.IndexByte_eq_neg_one_iff s ',').mpr hc
    have hj : strings.IndexByte s '/' ≠ -1 :=
      fun h => (strings.IndexByte_eq_neg_one_iff s '/').mp h hs
    simp [ParseTarget, hi, hj, hcidr]
  · intro ipnet d e h
    unfold ParseTarget at h
    dsimp only at h
    split at h
    · split at h
      · simp at h
      · split at h
        · simp at h; exact ⟨h.1.symm, h.2.1.symm⟩
        · split at h <;> simp at h
    · split at h
      · split at h
        · simp at h; exact ⟨h.1.symm, h.2.1.symm⟩
        · simp at h
      · split at h
        · split at h
          · split at h <;> simp at h
          · simp at h; exact ⟨h.1.symm, h.2.1.symm⟩
        · simp at h

/-- The unknown host name `nx.example.com` and the ill-formed block `10.0.0.0/33` give the
library errors with an empty result, and the malformed input `a,b,c` has an empty result
too. -/
theorem ParseTarget_errors_witness :
    ParseTarget sampleResolver "nx.example.com" =
      ⟨[.ParseIP "nx.example.com", .LookupIP "nx.example.com"],
        .ok (none, "", some (.other "*net.DNSError" "no such host"))⟩ ∧
    ParseTarget sampleResolver "10.0.0.0/33" =
      ⟨[.ParseCIDR "10.0.0.0/33"],
        .ok (none, "", some (.other "*net.ParseError" "invalid CIDR address"))⟩ ∧
    ((none : Option net.IPNet) = none ∧ "" = "") :=
  ⟨(ParseTarget_errors sampleResolver "nx.example.com").1 _ (by decide) (by decide) rfl rfl,
    (ParseTarget_errors sampleResolver "10.0.0.0/33").2.1 _ (by decide) (by decide) rfl,
    (ParseTarget_errors sampleResolver "a,b,c").2.2 none "" (.errorString "malformed input")
      (by decide)⟩

/-- C19. When every name lookup that reports no error gives a non-empty list of addresses,
the access `ips[0]` of the host-name branch is in range, and `ParseTarget` returns its three
values on every input instead of panicking. -/
theorem ParseTarget_returns (env : Resolver)
    (hlook : ∀ (s : String) (ips : List IP), env.LookupIP s = .ok ips → ips ≠ [])
    (s : String) : ∃ t : Target, (ParseTarget env s).ret = .ok t := by
  unfold ParseTarget
  dsimp only
  split
  · split
    · exact ⟨_, rfl⟩
    · split
      · exact ⟨_, rfl⟩
      · rename_i ips hl
        split
        · exact absurd rfl (hlook s [] hl)
        · exact ⟨_, rfl⟩
  · split
    · split <;> exact ⟨_, rfl⟩
    · split
      · split
        · split <;> exact ⟨_, rfl⟩
        · exact ⟨_, rfl⟩
      · exact ⟨_, rfl⟩

theorem sampleResolver_LookupIP_ne_nil (s : String) (ips : List IP)
    (h : sampleResolver.LookupIP s = .ok ips) : ips ≠ [] := by
  unfold sampleResolver at h
  dsimp only at h
  split at h
  · cases h; simp
  · cases h

/-- The sample resolver gives a non-empty list whenever its lookup succeeds, and
`ParseTarget` returns for the host name `example.com`. -/
theorem ParseTarget_returns_witness :
    (∀ (s : String) (ips : List IP), sampleResolver.LookupIP s = .ok ips → ips ≠ []) ∧
    ∃ t : Target, (ParseTarget sampleResolver "example.com").ret = .ok t :=
  ⟨sampleResolver_LookupIP_ne_nil,
    ParseTarget_returns sampleResolver sampleResolver_LookupIP_ne_nil "example.com"⟩

/-- C18, at the input where it fails: `TryGetScanStatus` returns `SCAN_SUCCESS` exactly for
the nil error, but for the non-nil error that holds a nil `*net.OpError` its result is none
of `SCAN_CONNECTION_TIMEOUT`, `SCAN_IO_TIMEOUT`, `SCAN_UNKNOWN_ERROR`: it panics. -/
theorem TryGetScanStatus_success_iff_nil_and_panic :
    (∀ err : Option Error, TryGetScanStatus err = .ok .SCAN_SUCCESS ↔ err = none) ∧
    TryGetScanStatus (some (.opError none)) ≠ .ok .SCAN_CONNECTION_TIMEOUT ∧
    TryGetScanStatus (some (.opError none)) ≠ .ok .SCAN_IO_TIMEOUT ∧
    TryGetScanStatus (some (.opError none)) ≠ .ok .SCAN_UNKNOWN_ERROR := by
  refine ⟨?_, by decide, by decide, by decide⟩
  intro err
  constructor
  · intro h
    rcases err with _ | (_ | op) | _ | _
    · rfl
    · simp [TryGetScanStatus] at h
    · simp only [TryGetScanStatus] at h
      split at h
      · simp at h
      · split at h
        · simp at h
        · split at h <;> simp at h
    · simp [TryGetScanStatus] at h
    · simp [TryGetScanStatus] at h
  · rintro rfl
    rfl

/-! ## Carry chain and enumeration -/


theorem incrementIPLoop_carry_chain (pre : IP) (b : Nat) (hb : b < 255) : ∀ (t : Nat) (suf : IP),
    incrementIPLoop (pre.length + 1 + t) (pre ++ b :: (List.replicate t 255 ++ suf))
      = pre ++ (b + 1) :: (List.replicate t 0 ++ suf) := by
  intro t
  induction t with
  | zero => intro suf; exact incrementIPLoop_step_lt pre suf b hb
  | succ t ih =>
    intro suf
    have e1 : pre ++ b :: (List.replicate (t + 1) 255 ++ suf)
        = (pre ++ b :: List.replicate t 255) ++ 255 :: suf := by
      rw [List.replicate_succ']; simp
    have e2 : pre.length + 1 + (t + 1) = (pre ++ b :: List.replicate t 255).length + 1 := by
      simp; omega
    rw [e1, e2, incrementIPLoop_step_carry]
    have e3 : (pre ++ b :: List.replicate t 255) ++ 0 :: suf
        = pre ++ b :: (List.replicate t 255 ++ 0 :: suf) := by simp
    have e4 : (pre ++ b :: List.replicate t 255).length = pre.length + 1 + t := by
      simp; omega
    rw [e3, e4, ih (0 :: suf), List.replicate_succ']
    simp

theorem incrementIPLoop_all_255 : ∀ (t : Nat) (suf : IP),
    incrementIPLoop t (List.replicate t 255 ++ suf) = List.replicate t 0 ++ suf := by
  intro t
  induction t with
  | zero => intro suf; rfl
  | succ t ih =>
    intro suf
    have e1 : List.replicate (t + 1) 255 ++ suf = List.replicate t 255 ++ 255 :: suf := by
      rw [List.replicate_succ']; simp
    have e2 : t + 1 = (List.replicate t (255 : Nat)).length + 1 := by simp
    rw [e1]
    conv_lhs => rw [e2]
    rw [incrementIPLoop_step_carry, List.length_replicate, ih (0 :: suf), List.replicate_succ']
    simp

theorem trailing255_append_singleton (p : IP) (a : Nat) :
    trailing255 (p ++ [a]) = if a = 255 then trailing255 p + 1 else 0 := by
  unfold trailing255
  rw [List.reverse_append, List.reverse_singleton, List.singleton_append, List.takeWhile_cons]
  by_cases h : a = 255
  · simp [h]
  · simp [h]

/-- Every address is either all `255`, or a byte other than `255` followed by the trailing
run of `255`. -/
theorem trailing255_decomp (ip : IP) :
    (trailing255 ip = ip.length ∧ ip = List.replicate ip.length 255) ∨
    (∃ (pre : IP) (b : Nat), b ≠ 255 ∧ ip = pre ++ b :: List.replicate (trailing255 ip) 255) := by
  induction ip using List.reverseRecOn with
  | nil => left; exact ⟨rfl, rfl⟩
  | append_singleton p a ih =>
    rw [trailing255_append_singleton]
    by_cases h : a = 255
    · subst h
      rw [if_pos rfl]
      rcases ih with ⟨h1, h2⟩ | ⟨pre, b, hb, h2⟩
      · left
        refine ⟨by simp [h1], ?_⟩
        rw [List.length_append, List.length_singleton, List.replicate_succ', ← h2]
      · right
        refine ⟨pre, b, hb, ?_⟩
        rw [List.replicate_succ']
        conv_lhs => rw [h2]
        simp
    · right
      rw [if_neg h]
      exact ⟨p, a, h, rfl⟩

theorem trailing255_le_length (ip : IP) : trailing255 ip ≤ ip.length := by
  unfold trailing255
  have := (List.takeWhile_sublist (fun b => b == 255) (l := ip.reverse)).length_le
  simpa using this

/-- C16. For every address `ip` of `n` bytes with `t` trailing bytes equal to `255`: when
`t < n`, `incrementIP` leaves the bytes below index `n - 1 - t` as they are, adds `1` to the
byte at index `n - 1 - t` and sets the `t` trailing bytes to `0`; when `t = n` (all bytes
`255`, also the empty address) it sets every byte to `0`. No other case exists. -/
theorem incrementIP_carry_chain (ip : IP) (h : IsBytes ip) :
    trailing255 ip ≤ ip.length ∧
    (trailing255 ip < ip.length →
      incrementIP ip = ip.take (ip.length - 1 - trailing255 ip) ++
        (ip.getD (ip.length - 1 - trailing255 ip) 0 + 1) ::
          List.replicate (trailing255 ip) 0) ∧
    (trailing255 ip = ip.length → incrementIP ip = List.replicate ip.length 0) := by
  refine ⟨trailing255_le_length ip, ?_, ?_⟩
  · intro hlt
    rcases trailing255_decomp ip with ⟨h1, _⟩ | ⟨pre, b, hb, h2⟩
    · omega
    · generalize trailing255 ip = t at h2 hlt ⊢
      subst h2
      have hb256 : b < 256 := h b (by simp)
      have hlen : (pre ++ b :: List.replicate t 255).length - 1 - t = pre.length := by
        simp
      rw [hlen, getD_append_cons_length, List.take_left]
      have e := incrementIPLoop_carry_chain pre b (by omega) t []
      simp only [List.append_nil] at e
      rw [incrementIP]
      have hl : (pre ++ b :: List.replicate t 255).length = pre.length + 1 + t := by
        simp; omega
      rw [hl, e]
  · intro heq
    rcases trailing255_decomp ip with ⟨_, h2⟩ | ⟨pre, b, _, h2⟩
    · have e := incrementIPLoop_all_255 ip.length []
      simp only [List.append_nil] at e
      rw [incrementIP]
      conv_lhs => rw [h2]
      rw [List.length_replicate, e]
    · have hl := congrArg List.length h2
      simp at hl
      omega

/-- The carry chain at `1.2.255.255` (two trailing `255`), at `1.2.3.4` (none) and at
`255.255.255.255` (all four). -/
theorem incrementIP_carry_chain_witness :
    incrementIP [1, 2, 255, 255] = [1, 3, 0, 0] ∧
    incrementIP [1, 2, 3, 4] = [1, 2, 3, 5] ∧
    incrementIP [255, 255, 255, 255] = [0, 0, 0, 0] :=
  ⟨(incrementIP_carry_chain [1, 2, 255, 255] (by decide)).2.1 (by decide),
    (incrementIP_carry_chain [1, 2, 3, 4] (by decide)).2.1 (by decide),
    (incrementIP_carry_chain [255, 255, 255, 255] (by decide)).2.2 (by decide)⟩

theorem duplicateIP_eq (ip : IP) : duplicateIP ip = ip := by
  simp [duplicateIP, builtin.copy, builtin.make]

/-- Within a block of `2 ^ h` addresses that starts at an address with `h` zero low bits,
adding an offset below `2 ^ h` does not overflow `n` bytes. -/
theorem value_add_lt (n h v k : Nat) (hh : h ≤ 8 * n) (hv : v < 256 ^ n)
    (hz : v % 2 ^ h = 0) (hk : k < 2 ^ h) : v + k < 256 ^ n := by
  obtain ⟨m, rfl⟩ := Nat.dvd_of_mod_eq_zero hz
  have e256 : 256 ^ n = 2 ^ h * 2 ^ (8 * n - h) := by
    rw [← pow_add, Nat.add_sub_cancel' hh, pow_mul]
    norm_num
  rw [e256] at hv ⊢
  have hm : m < 2 ^ (8 * n - h) := Nat.lt_of_mul_lt_mul_left hv
  calc 2 ^ h * m + k < 2 ^ h * m + 2 ^ h := by omega
    _ = 2 ^ h * (m + 1) := by ring
    _ ≤ 2 ^ h * 2 ^ (8 * n - h) := Nat.mul_le_mul_left _ hm

/-- Below the wrap-around, `k` increments add `k` to the value. -/
theorem iterate_incrementIP_value_of_lt (k : Nat) (ip : IP) (hb : IsBytes ip)
    (hlt : value ip + k < 256 ^ ip.length) : value (incrementIP^[k] ip) = value ip + k := by
  rw [iterate_incrementIP_value k ip hb, Nat.mod_eq_of_lt hlt]

/-- C17. For every base address of `n` bytes whose low `h` bits are zero (`h ≤ 8 * n`) and
every `k < 2 ^ h`, incrementing a copy of the base `k` times gives the `n`-byte address with
big-endian value `value base + k`, whose bits above the low `h` are those of the base; and
the `2 ^ h` addresses obtained this way are pairwise distinct. -/
theorem enumeration_stays_in_block (base : IP) (h k : Nat) (hb : IsBytes base)
    (hh : h ≤ 8 * base.length) (hz : value base % 2 ^ h = 0) (hk : k < 2 ^ h) :
    (incrementIP^[k] (duplicateIP base)).length = base.length ∧
    IsBytes (incrementIP^[k] (duplicateIP base)) ∧
    value (incrementIP^[k] (duplicateIP base)) = value base + k ∧
    value (incrementIP^[k] (duplicateIP base)) / 2 ^ h = value base / 2 ^ h ∧
    ∀ k2 : Nat, k2 < 2 ^ h →
      incrementIP^[k] (duplicateIP base) = incrementIP^[k2] (duplicateIP base) → k = k2 := by
  rw [duplicateIP_eq]
  have hv := value_lt base hb
  have hval : ∀ j : Nat, j < 2 ^ h → value (incrementIP^[j] base) = value base + j :=
    fun j hj => iterate_incrementIP_value_of_lt j base hb
      (value_add_lt base.length h (value base) j hh hv hz hj)
  refine ⟨iterate_incrementIP_length k base, iterate_incrementIP_isBytes k base hb, hval k hk,
    ?_, ?_⟩
  · rw [hval k hk]
    obtain ⟨m, hm⟩ := Nat.dvd_of_mod_eq_zero hz
    have hpos : 0 < 2 ^ h := Nat.pow_pos (by decide)
    rw [hm, Nat.mul_add_div hpos, Nat.mul_div_cancel_left m hpos, Nat.div_eq_of_lt hk,
      Nat.add_zero]
  · intro k2 hk2 he
    have e := congrArg value he
    rw [hval k hk, hval k2 hk2] at e
    omega

/-- The block `10.0.0.0/30` (`h = 2`): three increments of a copy of `10.0.0.0` give
`10.0.0.3`, inside the block, and differ from the result of one increment. -/
theorem enumeration_stays_in_block_witness :
    IsBytes [10, 0, 0, 0] ∧ value [10, 0, 0, 0] % 2 ^ 2 = 0 ∧
    value (incrementIP^[3] (duplicateIP [10, 0, 0, 0])) = value [10, 0, 0, 0] + 3 ∧
    incrementIP^[3] (duplicateIP [10, 0, 0, 0]) = [10, 0, 0, 3] :=
  ⟨by decide, by decide,
    (enumeration_stays_in_block [10, 0, 0, 0] 2 3 (by decide) (by decide) (by decide)
      (by decide)).2.2.1,
    by decide⟩

/-! ## Slices in memory -/

namespace Mem

theorem getD_set_self (h : Heap) (a : Nat) (x : List Nat) (hx : a < h.length ∨ x = []) :
    (h.set a x).getD a [] = x := by
  rw [List.getD_eq_getElem?_getD]
  rcases hx with hx | hx
  · rw [List.getElem?_set_self hx]; rfl
  · subst hx
    rw [List.getElem?_set, if_pos rfl]
    split <;> rfl

theorem getD_set_of_ne (h : Heap) (a c : Nat) (x : List Nat) (hne : c ≠ a) :
    (h.set a x).getD c [] = h.getD c [] := by
  rw [List.getD_eq_getElem?_getD, List.getD_eq_getElem?_getD, List.getElem?_set_ne hne.symm]

theorem getD_of_length_le (h : Heap) (a : Nat) (ha : h.length ≤ a) : h.getD a [] = [] := by
  rw [List.getD_eq_getElem?_getD, List.getElem?_eq_none ha]; rfl

/-- The assignment `s[j] = b` changes the backing array of `s` at offset `s.off + j`. -/
theorem getD_put_self (h : Heap) (s : Slice) (j b : Nat) :
    (put h s j b).getD s.arr [] = (h.getD s.arr []).set (s.off + j) b := by
  rw [put]
  apply getD_set_self
  by_cases ha : s.arr < h.length
  · exact Or.inl ha
  · right
    rw [getD_of_length_le h s.arr (by omega)]
    rfl

/-- The assignment `s[j] = b` changes no other backing array. -/
theorem getD_put_of_ne (h : Heap) (s : Slice) (j b c : Nat) (hne : c ≠ s.arr) :
    (put h s j b).getD c [] = h.getD c [] :=
  getD_set_of_ne h s.arr c _ hne

theorem read_of_len_eq_zero (h : Heap) (t : Slice) (ht : t.len = 0) : read h t = [] := by
  rw [read, ht, List.take_zero]

/-- The contents of a slice depend on its backing array only. -/
theorem read_congr (h1 h2 : Heap) (t : Slice)
    (hc : t.len = 0 ∨ h1.getD t.arr [] = h2.getD t.arr []) : read h1 t = read h2 t := by
  rcases hc with hc | hc
  · rw [read_of_len_eq_zero h1 t hc, read_of_len_eq_zero h2 t hc]
  · rw [read, read, hc]

/-- The loop of `incrementIP` changes no backing array other than that of its argument. -/
theorem getD_incrementIPLoop_of_ne (s : Slice) (c : Nat) (hne : c ≠ s.arr) :
    ∀ (k : Nat) (h : Heap), (incrementIPLoop k h s).getD c [] = h.getD c [] := by
  intro k
  induction k with
  | zero => intro h; rfl
  | succ j ih =>
    intro h
    rw [incrementIPLoop]
    split
    · exact getD_put_of_ne h s j _ c hne
    · rw [ih, getD_put_of_ne h s j _ c hne]

theorem length_read (h : Heap) (s : Slice) (hs : Valid h s) : (read h s).length = s.len := by
  rcases hs with hs | ⟨_, hs⟩
  · rw [read_of_len_eq_zero h s hs, hs]; rfl
  · rw [read, List.length_take, List.length_drop]
    omega

theorem getD_append_of_lt (h : Heap) (x : List Nat) (a : Nat) (ha : a < h.length) :
    (h ++ [x]).getD a [] = h.getD a [] :=
  List.getD_append h [x] [] a ha

theorem getD_append_length (h : Heap) (x : List Nat) : (h ++ [x]).getD h.length [] = x := by
  rw [List.getD_append_right h [x] [] h.length (le_refl _)]
  simp

/-- Allocating a new backing array leaves the contents of every usable slice as they are. -/
theorem read_append (h : Heap) (x : List Nat) (s : Slice) (hs : Valid h s) :
    read (h ++ [x]) s = read h s := by
  apply read_congr
  rcases hs with hs | ⟨hs, _⟩
  · exact Or.inl hs
  · exact Or.inr (getD_append_of_lt h x s.arr hs)

/-- The effect of `duplicateIP` on the memory: one new backing array, holding the contents
of `ip`, and the returned slice covers exactly that array. -/
theorem duplicateIP_alloc (h : Heap) (ip : Slice) (hs : Valid h ip) :
    duplicateIP h ip = (h ++ [read h ip], ⟨h.length, 0, ip.len⟩) := by
  have hl := length_read h ip hs
  have hr := read_append h (List.replicate ip.len 0) ip hs
  simp only [duplicateIP, make, copy, hr, getD_append_length, Nat.min_self]
  rw [← hl, List.take_length]
  simp

theorem get_eq_getD_read (h : Heap) (s : Slice) (j : Nat) (hj : j < s.len) :
    get h s j = (read h s).getD j 0 := by
  simp only [get, read, List.getD_eq_getElem?_getD, List.getElem?_take_of_lt hj,
    List.getElem?_drop]

theorem read_put_self (h : Heap) (s : Slice) (j b : Nat) :
    read (put h s j b) s = (read h s).set j b := by
  rw [read, getD_put_self, read, ← List.set_take, List.set_drop]

/-- The loop on a slice in memory computes, on the contents of the slice, what the loop on
contents computes. -/
theorem read_incrementIPLoop (s : Slice) : ∀ (k : Nat) (h : Heap), k ≤ s.len →
    read (incrementIPLoop k h s) s = Zgrab2.incrementIPLoop k (read h s) := by
  intro k
  induction k with
  | zero => intro h _; rfl
  | succ j ih =>
    intro h hk
    have hj : j < s.len := by omega
    rw [incrementIPLoop, Zgrab2.incrementIPLoop]
    simp only [get_eq_getD_read _ s j hj, read_put_self]
    split
    · rw [read_put_self]
    · rw [ih _ (by omega), read_put_self]

/-- The in-place `incrementIP` changes the contents of its argument as `incrementIP` on
contents does. -/
theorem read_incrementIP (h : Heap) (s : Slice) (hs : Valid h s) :
    read (incrementIP h s) s = Zgrab2.incrementIP (read h s) := by
  rw [incrementIP, Zgrab2.incrementIP, length_read h s hs]
  exact read_incrementIPLoop s s.len h (le_refl _)

/-- The in-place `incrementIP` leaves the contents of a slice with another backing array, and
of an empty slice, as they are. -/
theorem read_incrementIP_of_ne (h : Heap) (s t : Slice) (hne : t.len = 0 ∨ t.arr ≠ s.arr) :
    read (incrementIP h s) t = read h t := by
  apply read_congr
  rcases hne with hne | hne
  · exact Or.inl hne
  · exact Or.inr (getD_incrementIPLoop_of_ne s t.arr hne s.len h)

theorem read_put_of_ne (h : Heap) (s t : Slice) (j b : Nat) (hne : t.len = 0 ∨ t.arr ≠ s.arr) :
    read (put h s j b) t = read h t := by
  apply read_congr
  rcases hne with hne | hne
  · exact Or.inl hne
  · exact Or.inr (getD_put_of_ne h s j b t.arr hne)

/-- A usable slice is empty or has a backing array other than the next one allocated. -/
theorem ne_fresh_of_valid (h : Heap) (ip : Slice) (hs : Valid h ip) :
    ip.len = 0 ∨ ip.arr ≠ h.length := by
  rcases hs with hs | ⟨hs, _⟩
  · exact Or.inl hs
  · exact Or.inr (by omega)

theorem read_fresh (h : Heap) (x : List Nat) :
    read (h ++ [x]) ⟨h.length, 0, x.length⟩ = x := by
  rw [read]
  simp only [getD_append_length, List.drop_zero, List.take_length]

end Mem

/-! ## Copying an address -/

/-- C14. For every address `ip`, `duplicateIP` returns a slice of the same length as `ip`
whose byte at every index is the byte of `ip` at that index, so its contents are those of
`ip`; the call allocates one backing array, changes none that existed, and leaves the
contents of `ip` as they were. On contents, `duplicateIP` is the identity. -/
theorem duplicateIP_copies (h : Heap) (ip : Slice) (hs : Mem.Valid h ip) :
    (Mem.duplicateIP h ip).2.len = ip.len ∧
    (Mem.read (Mem.duplicateIP h ip).1 (Mem.duplicateIP h ip).2).length = ip.len ∧
    (∀ j : Nat, j < ip.len →
      Mem.get (Mem.duplicateIP h ip).1 (Mem.duplicateIP h ip).2 j = Mem.get h ip j) ∧
    Mem.read (Mem.duplicateIP h ip).1 (Mem.duplicateIP h ip).2 = Mem.read h ip ∧
    Mem.read (Mem.duplicateIP h ip).1 ip = Mem.read h ip ∧
    (Mem.duplicateIP h ip).1.take h.length = h ∧
    duplicateIP (Mem.read h ip) = Mem.read h ip := by
  have hl := Mem.length_read h ip hs
  have hd : Mem.read (h ++ [Mem.read h ip]) ⟨h.length, 0, ip.len⟩ = Mem.read h ip := by
    have := Mem.read_fresh h (Mem.read h ip)
    rwa [hl] at this
  rw [Mem.duplicateIP_alloc h ip hs]
  refine ⟨rfl, ?_, ?_, hd, Mem.read_append h _ ip hs, ?_, duplicateIP_eq _⟩
  · dsimp only
    rw [hd, hl]
  · intro j hj
    dsimp only
    rw [Mem.get_eq_getD_read h ip j hj,
      Mem.get_eq_getD_read (h ++ [Mem.read h ip]) ⟨h.length, 0, ip.len⟩ j hj, hd]
  · dsimp only
    rw [List.take_left]

/-- The copy of the slice `1.2.3.255` that sits at offset `1` of a six-byte array: a new
array `1.2.3.255`, with the old array and the contents of the slice as before. -/
theorem duplicateIP_copies_witness :
    Mem.Valid [[9, 1, 2, 3, 255, 7]] ⟨0, 1, 4⟩ ∧
    Mem.duplicateIP [[9, 1, 2, 3, 255, 7]] ⟨0, 1, 4⟩ =
      ([[9, 1, 2, 3, 255, 7], [1, 2, 3, 255]], ⟨1, 0, 4⟩) ∧
    Mem.read (Mem.duplicateIP [[9, 1, 2, 3, 255, 7]] ⟨0, 1, 4⟩).1
      (Mem.duplicateIP [[9, 1, 2, 3, 255, 7]] ⟨0, 1, 4⟩).2 =
        Mem.read [[9, 1, 2, 3, 255, 7]] ⟨0, 1, 4⟩ ∧
    Mem.read [[9, 1, 2, 3, 255, 7]] ⟨0, 1, 4⟩ = [1, 2, 3, 255] :=
  ⟨by decide, by decide,
    (duplicateIP_copies [[9, 1, 2, 3, 255, 7]] ⟨0, 1, 4⟩ (by decide)).2.2.2.1,
    by decide⟩

theorem Mem.getD_iterate_incrementIP_of_ne (s : Slice) (c : Nat) (hne : c ≠ s.arr) (h : Heap) :
    ∀ k : Nat, ((fun m => Mem.incrementIP m s)^[k] h).getD c [] = h.getD c [] := by
  intro k
  induction k with
  | zero => rfl
  | succ k ih =>
    rw [Function.iterate_succ_apply']
    exact (Mem.getD_incrementIPLoop_of_ne s c hne s.len _).trans ih

/-- C15. For every address `ip`, after `dup := duplicateIP(ip)` no change made through `dup`
reaches `ip`: whatever happens to the backing array of `dup`, and in particular overwriting
any byte of `dup`, one `incrementIP(dup)`, and any number of repeated `incrementIP(dup)`, the
contents of `ip` stay as they were before the copy, while `incrementIP(dup)` does change
`dup` itself, to the increment of those contents. -/
theorem duplicateIP_no_alias (h : Heap) (ip : Slice) (hs : Mem.Valid h ip)
    (h1 : Heap) (dup : Slice) (hd : Mem.duplicateIP h ip = (h1, dup)) :
    (∀ h2 : Heap, (∀ c : Nat, c ≠ dup.arr → h2.getD c [] = h1.getD c []) →
      Mem.read h2 ip = Mem.read h ip) ∧
    (∀ j b : Nat, j < dup.len → Mem.read (Mem.put h1 dup j b) ip = Mem.read h ip) ∧
    Mem.read (Mem.incrementIP h1 dup) ip = Mem.read h ip ∧
    (∀ k : Nat, Mem.read ((fun m => Mem.incrementIP m dup)^[k] h1) ip = Mem.read h ip) ∧
    Mem.read (Mem.incrementIP h1 dup) dup = incrementIP (Mem.read h ip) := by
  rw [Mem.duplicateIP_alloc h ip hs] at hd
  obtain ⟨rfl, rfl⟩ := Prod.mk.inj hd
  have hne := Mem.ne_fresh_of_valid h ip hs
  have hr := Mem.read_append h (Mem.read h ip) ip hs
  have hl := Mem.length_read h ip hs
  refine ⟨?_, ?_, ?_, ?_, ?_⟩
  · intro h2 hframe
    refine (Mem.read_congr _ _ ip ?_).trans hr
    rcases hne with hne | hne
    · exact Or.inl hne
    · exact Or.inr (hframe ip.arr hne)
  · intro j b _
    rw [Mem.read_put_of_ne _ _ ip j b hne, hr]
  · rw [Mem.read_incrementIP_of_ne _ _ ip hne, hr]
  · intro k
    refine (Mem.read_congr _ _ ip ?_).trans hr
    rcases hne with hne | hne
    · exact Or.inl hne
    · exact Or.inr (Mem.getD_iterate_incrementIP_of_ne _ ip.arr hne _ k)
  · have hv : Mem.Valid (h ++ [Mem.read h ip]) ⟨h.length, 0, ip.len⟩ := by
      right
      refine ⟨by simp, ?_⟩
      rw [Mem.getD_append_length, hl]
      simp
    rw [Mem.read_incrementIP _ _ hv]
    have := Mem.read_fresh h (Mem.read h ip)
    rw [hl] at this
    rw [this]

/-- The copy of the slice `1.2.3.255` is incremented to `1.2.4.0` and has its first byte
overwritten, and the slice still reads `1.2.3.255`. -/
theorem duplicateIP_no_alias_witness :
    Mem.Valid [[9, 1, 2, 3, 255, 7]] ⟨0, 1, 4⟩ ∧
    Mem.read (Mem.incrementIP [[9, 1, 2, 3, 255, 7], [1, 2, 3, 255]] ⟨1, 0, 4⟩) ⟨0, 1, 4⟩ =
      Mem.read [[9, 1, 2, 3, 255, 7]] ⟨0, 1, 4⟩ ∧
    Mem.read (Mem.put [[9, 1, 2, 3, 255, 7], [1, 2, 3, 255]] ⟨1, 0, 4⟩ 0 77) ⟨0, 1, 4⟩ =
      Mem.read [[9, 1, 2, 3, 255, 7]] ⟨0, 1, 4⟩ ∧
    Mem.incrementIP [[9, 1, 2, 3, 255, 7], [1, 2, 3, 255]] ⟨1, 0, 4⟩ =
      [[9, 1, 2, 3, 255, 7], [1, 2, 4, 0]] :=
  ⟨by decide,
    (duplicateIP_no_alias [[9, 1, 2, 3, 255, 7]] ⟨0, 1, 4⟩ (by decide)
      [[9, 1, 2, 3, 255, 7], [1, 2, 3, 255]] ⟨1, 0, 4⟩ (by decide)).2.2.1,
    (duplicateIP_no_alias [[9, 1, 2, 3, 255, 7]] ⟨0, 1, 4⟩ (by decide)
      [[9, 1, 2, 3, 255, 7], [1, 2, 3, 255]] ⟨1, 0, 4⟩ (by decide)).2.1 0 77 (by decide),
    by decide⟩

end Zgrab2
